import Mathlib

/-!
# Verification of the tsquery binary codec and infix renderer

Shallow embedding of `src/pg_tsquery.rs`.  Machine bytes are modelled as
natural numbers (a byte is a `Nat` below 256); Rust strings are modelled
by their UTF-8 byte sequences, so both the stored operand text and the
rendered display output are byte lists.  Fallible code returns `Except`.

The reader (`std::io::Cursor`) is modelled by the list of bytes that
remain to be consumed.  Since the cursor only ever moves forward and its
position never exceeds the buffer length, the source condition
`reader.position() == size - 1` is equivalent to the remaining list
having length 1, which is how it appears in `decodeEntry` below.
-/

namespace PgTs

/-- Operator kinds, `enum Operators` in the source (codes 1-4). -/
inductive Operators where
  | not
  | and
  | or
  | phrase
deriving DecidableEq, Repr

/-- Conversion `From<Operators> for i8` (the numeric operator code). -/
def Operators.code : Operators → Nat
  | .not => 1
  | .and => 2
  | .or => 3
  | .phrase => 4

/-- Conversion `TryFrom<i8> for Operators`; codes outside 1-4 are invalid. -/
def operatorsTryFrom (v : Int) : Option Operators :=
  if v = 1 then some .not
  else if v = 2 then some .and
  else if v = 3 then some .or
  else if v = 4 then some .phrase
  else none

/-- Operator token, `struct Operator` in the source (`distance` is `Option<i16>`). -/
structure Operator where
  operator : Operators
  distance : Option Int
deriving DecidableEq, Repr

/-- Value token, `struct Value` in the source.  `text` holds the UTF-8 bytes of
the Rust `String`; `pfx` is the source field named after the star marker flag
(a `u8`); `distance` is the `i16` field derived from the text length. -/
structure Value where
  weight : Nat
  text : List Nat
  pfx : Nat
  distance : Int
deriving DecidableEq, Repr

/-- Tagged union `enum Entry` in the source. -/
inductive Entry where
  | operator (op : Operator)
  | value (v : Value)
deriving DecidableEq, Repr

/-- The decoded query, `struct PgTsQuery` in the source. -/
structure PgTsQuery where
  entries : List Entry
deriving DecidableEq, Repr

/-- Decode failures.  `eof` stands for the `std::io` unexpected-end-of-input
errors raised by the fixed-width reads; `panicOverflow` models the
`to_i16().unwrap()` abort when the operand is longer than 32767 bytes. -/
inductive DecErr where
  | eof
  | invalidOperator
  | trailingOperator
  | invalidWeight
  | operandTooLong
  | utf8Error
  | panicOverflow
deriving DecidableEq, Repr

instance {ε α : Type} [DecidableEq ε] [DecidableEq α] : DecidableEq (Except ε α) := fun a b =>
  match a, b with
  | .ok x, .ok y =>
    if h : x = y then isTrue (by rw [h]) else isFalse (fun hh => h (Except.ok.inj hh))
  | .error x, .error y =>
    if h : x = y then isTrue (by rw [h]) else isFalse (fun hh => h (Except.error.inj hh))
  | .ok _, .error _ => isFalse (fun hh => Except.noConfusion hh)
  | .error _, .ok _ => isFalse (fun hh => Except.noConfusion hh)

/-- Read one byte (`read_u8`); fails at end of input. -/
def readU8 : List Nat → Except DecErr (Nat × List Nat)
  | [] => .error .eof
  | b :: r => .ok (b, r)

/-- Read a big-endian unsigned 32-bit integer (`read_u32::<NetworkEndian>`). -/
def readU32be : List Nat → Except DecErr (Nat × List Nat)
  | b0 :: b1 :: b2 :: b3 :: r => .ok (((b0 * 256 + b1) * 256 + b2) * 256 + b3, r)
  | _ => .error .eof

/-- Read a big-endian signed 16-bit integer (`read_i16::<NetworkEndian>`),
two's complement. -/
def readI16be : List Nat → Except DecErr (Int × List Nat)
  | b0 :: b1 :: r =>
    .ok (if b0 * 256 + b1 < 32768 then ((b0 * 256 + b1 : Nat) : Int)
         else ((b0 * 256 + b1 : Nat) : Int) - 65536, r)
  | _ => .error .eof

/-- Reinterpret a byte as a signed 8-bit integer (`read_i8` on one byte). -/
def toI8 (b : Nat) : Int :=
  if b < 128 then (b : Int) else (b : Int) - 256

/-- Model of `BufRead::read_until(0, ..)`: returns the bytes read (up to and
including the 0 delimiter when found, everything to end of input otherwise)
together with the unconsumed remainder.  Reaching end of input is not an
error. -/
def readUntil0 : List Nat → List Nat × List Nat
  | [] => ([], [])
  | b :: r =>
    if b = 0 then ([0], r)
    else
      let p := readUntil0 r
      (b :: p.1, p.2)

/-- Byte-range automaton for the validation performed by `str::from_utf8`:
the first argument lists the admissible ranges of the continuation bytes
still expected for the current code point.  A lead byte installs the ranges
dictated by strict UTF-8 (rejecting overlong forms, surrogates and code
points above U+10FFFF); a pending range consumes one byte. -/
def utf8ValidFrom : List (Nat × Nat) → List Nat → Bool
  | [], [] => true
  | _ :: _, [] => false
  | [], b :: rest =>
    if b ≤ 127 then utf8ValidFrom [] rest
    else if b < 194 then false
    else if b ≤ 223 then utf8ValidFrom [(128, 191)] rest
    else if b = 224 then utf8ValidFrom [(160, 191), (128, 191)] rest
    else if b = 237 then utf8ValidFrom [(128, 159), (128, 191)] rest
    else if b ≤ 239 then utf8ValidFrom [(128, 191), (128, 191)] rest
    else if b = 240 then utf8ValidFrom [(144, 191), (128, 191), (128, 191)] rest
    else if b = 244 then utf8ValidFrom [(128, 143), (128, 191), (128, 191)] rest
    else if b ≤ 244 then utf8ValidFrom [(128, 191), (128, 191), (128, 191)] rest
    else false
  | (lo, hi) :: exp, b :: rest =>
    if lo ≤ b ∧ b ≤ hi then utf8ValidFrom exp rest else false

/-- Model of the validation performed by `str::from_utf8`. -/
def utf8Valid (l : List Nat) : Bool :=
  utf8ValidFrom [] l

/-- The operator-entry arm (`entry_type == 2`) of the decode loop body,
applied to the bytes remaining after the discriminator.  The check
`r2.length = 1` is the source condition `reader.position() == (size - 1)`
expressed through the remaining bytes. -/
def decodeOperatorEntry (r1 : List Nat) : Except DecErr (Option Entry × List Nat) :=
  match readU8 r1 with
  | .error e => .error e
  | .ok (opByte, r2) =>
    match operatorsTryFrom (toI8 opByte) with
    | none => .error .invalidOperator
    | some opType =>
      if r2.length = 1 then .error .trailingOperator
      else if opType = .phrase then
        match readI16be r2 with
        | .error e => .error e
        | .ok (d, r3) => .ok (some (.operator ⟨opType, some d⟩), r3)
      else .ok (some (.operator ⟨opType, none⟩), r2)

/-- The value-entry arm (`entry_type == 1`) of the decode loop body, applied
to the bytes remaining after the discriminator: weight byte, flag byte, text
up to a 0 terminator (the final byte read is popped), UTF-8 validation, the
`to_i16` conversion (aborting above 32767), then the weight and length
checks. -/
def decodeValueEntry (r1 : List Nat) : Except DecErr (Option Entry × List Nat) :=
  match readU8 r1 with
  | .error e => .error e
  | .ok (w, r2) =>
    match readU8 r2 with
    | .error e => .error e
    | .ok (p, r3) =>
      let tr := readUntil0 r3
      let text := tr.1.dropLast
      if utf8Valid text then
        if text.length ≤ 32767 then
          if 15 < w then .error .invalidWeight
          else if 2047 < text.length then .error .operandTooLong
          else .ok (some (.value ⟨w, text, p, (text.length : Int) + 1⟩), tr.2)
        else .error .panicOverflow
      else .error .utf8Error

/-- Decode one entry of the loop body of `TryFrom<&[u8]> for PgTsQuery`.
Returns `none` (entry skipped, nothing pushed) for a discriminator other
than 1 or 2, mirroring the `if / else if` with no final `else` in the
source. -/
def decodeEntry (rem : List Nat) : Except DecErr (Option Entry × List Nat) :=
  match readU8 rem with
  | .error e => .error e
  | .ok (entryType, r1) =>
    if entryType = 2 then decodeOperatorEntry r1
    else if entryType = 1 then decodeValueEntry r1
    else .ok (none, r1)

/-- The decode loop `for _ in 0..count`, returning the collected entries and
the unconsumed remainder of the buffer. -/
def decodeEntries : Nat → List Nat → Except DecErr (List Entry × List Nat)
  | 0, rem => .ok ([], rem)
  | n + 1, rem =>
    match decodeEntry rem with
    | .error e => .error e
    | .ok (oe, rem') =>
      match decodeEntries n rem' with
      | .error e => .error e
      | .ok (es, remF) =>
        .ok ((match oe with
              | some e => e :: es
              | none => es), remF)

/-- The whole decoder, `TryFrom<&[u8]> for PgTsQuery::try_from`: a 4-byte
big-endian count followed by that many entries; trailing bytes are dropped. -/
def pgTsQueryTryFrom (bytes : List Nat) : Except DecErr PgTsQuery :=
  match readU32be bytes with
  | .error e => .error e
  | .ok (count, rem) =>
    match decodeEntries count rem with
    | .error e => .error e
    | .ok (es, _) => .ok ⟨es⟩

/-- Outcome of calling `FromSql::from_sql`: either the function returns a
`Result`, or the call aborts the process. -/
inductive FromSqlOutcome where
  | returns (r : Except DecErr PgTsQuery)
  | panics
deriving DecidableEq

/-- Model of `FromSql for PgTsQuery::from_sql`: the source runs
`raw.try_into().unwrap()`, so a decode failure aborts instead of being
returned. -/
def fromSql (raw : List Nat) : FromSqlOutcome :=
  match pgTsQueryTryFrom raw with
  | .ok q => .returns (.ok q)
  | .error _ => .panics

/-- Encode one entry, from the body of `ToSql for PgTsQuery::to_sql`.
The phrase distance is written as `distance.unwrap_or(1)` in two
big-endian two's-complement bytes. -/
def i16be (d : Int) : List Nat :=
  [((d % 65536).toNat) / 256, ((d % 65536).toNat) % 256]

/-- Big-endian bytes of an unsigned 32-bit integer (`put_u32`). -/
def u32be (n : Nat) : List Nat :=
  [n / 16777216 % 256, n / 65536 % 256, n / 256 % 256, n % 256]

/-- Encoding of a single entry (`to_sql` loop body).  Discriminator 2 and the
operator code for operators (plus the distance for `phrase`); discriminator 1,
weight, flag byte, raw text bytes and a 0 terminator for values. -/
def encodeEntry : Entry → List Nat
  | .operator op =>
    [2, op.operator.code] ++ (if op.operator = .phrase then i16be (op.distance.getD 1) else [])
  | .value v =>
    [1, v.weight % 256, v.pfx % 256] ++ v.text ++ [0]

/-- The whole encoder, `ToSql for PgTsQuery::to_sql`: the entry count as a
32-bit big-endian integer (`entries.len() as u32`), then each entry. -/
def toSql (q : PgTsQuery) : List Nat :=
  u32be (q.entries.length % 4294967296) ++ (q.entries.map encodeEntry).flatten

/-- The table `weight_to_string`, mapping the 4-bit weight mask to the bytes
of its label (65-68 are the bytes of the letters A-D). -/
def weightToString : Nat → Option (List Nat)
  | 0 => none
  | 8 => some [65]
  | 4 => some [66]
  | 2 => some [67]
  | 1 => some [68]
  | 12 => some [65, 66]
  | 10 => some [65, 67]
  | 9 => some [65, 68]
  | 6 => some [66, 67]
  | 5 => some [66, 68]
  | 3 => some [67, 68]
  | 14 => some [65, 66, 67]
  | 13 => some [65, 66, 68]
  | 11 => some [65, 67, 68]
  | 7 => some [66, 67, 68]
  | 15 => some [65, 66, 67, 68]
  | _ => none

/-- Decimal digit bytes of a natural number, most significant first. -/
def natDecBytes (n : Nat) : List Nat :=
  (Nat.toDigits 10 n).map Char.toNat

/-- Decimal rendering of a signed integer (45 is the minus sign byte),
matching Rust integer formatting. -/
def intDecBytes (d : Int) : List Nat :=
  if d < 0 then 45 :: natDecBytes d.natAbs else natDecBytes d.toNat

/-- The phrase connective from the `Operators::Phrase` arm of `infix_string`:
the three bytes of the adjacency arrow for distance `None` or `Some 1`, and
the distance between angle brackets (bytes 60 and 62) otherwise. -/
def phraseConn : Option Int → List Nat
  | none => [60, 45, 62]
  | some d => if d = 1 then [60, 45, 62] else [60] ++ intDecBytes d ++ [62]

/-- Rendering of one value from the `Entry::Value` arm of `infix_string`:
the text between single quotes (byte 39), then either colon-star (58, 42)
when the flag byte is positive, or a colon and the weight label when the
weight maps to one. -/
def valueString (v : Value) : List Nat :=
  if 0 < v.pfx then [39] ++ v.text ++ [39, 58, 42]
  else
    match weightToString v.weight with
    | some w => [39] ++ v.text ++ [39, 58] ++ w
    | none => [39] ++ v.text ++ [39]

/-- One iteration of the `infix_string` loop.  The state is the string stack
(head is the top, matching `Vec::push`/`Vec::pop` at the tail) paired with the
running last-precedence value; `len` is the total entry count and `num` the
iteration index, used by the source check `num == len - 1`.  Note that the
tuple `(stack.pop(), stack.pop())` in the source removes the top element even
when the second pop fails, which is the `other.drop 1` in the fallthrough
arms; 32, 38 and 124 are the bytes of space, ampersand and the vertical
bar. -/
def renderStep (len num : Nat) (st : List (List Nat) × Nat) (e : Entry) :
    List (List Nat) × Nat :=
  match e with
  | .value v => (valueString v :: st.1, st.2)
  | .operator op =>
    match op.operator with
    | .not =>
      match st.1 with
      | x :: s => ((33 :: x) :: s, 1)
      | [] => ([], st.2)
    | .and =>
      match st.1 with
      | right :: left :: s =>
        if st.2 < 2 then
          (if num = len - 1 then (left ++ [32, 38, 32] ++ right) :: s
           else ([40] ++ left ++ [32, 38, 32] ++ right ++ [41]) :: s, 2)
        else ((left ++ [32, 38, 32] ++ right) :: s, 2)
      | other => (other.drop 1, st.2)
    | .or =>
      match st.1 with
      | right :: left :: s =>
        if st.2 < 3 then
          (if num = len - 1 then (left ++ [32, 124, 32] ++ right) :: s
           else ([40] ++ left ++ [32, 124, 32] ++ right ++ [41]) :: s, 3)
        else ((left ++ [32, 124, 32] ++ right) :: s, 3)
      | other => (other.drop 1, st.2)
    | .phrase =>
      match st.1 with
      | right :: left :: s =>
        ((left ++ [32] ++ phraseConn op.distance ++ [32] ++ right) :: s, 4)
      | other => (other.drop 1, st.2)

/-- The `for num in 0..len` loop of `infix_string`, fed the entries in
reverse order because the source pops them from the tail. -/
def renderLoop (len : Nat) : Nat → List Entry → List (List Nat) × Nat → List (List Nat) × Nat
  | _, [], st => st
  | num, e :: rest, st => renderLoop len (num + 1) rest (renderStep len num st e)

/-- The function `infix_string`: run the loop over the reversed entries and
join the remaining stack bottom-to-top with single spaces. -/
def renderInfix (entries : List Entry) : List Nat :=
  let st := renderLoop entries.length 0 entries.reverse ([], 0)
  List.intercalate [32] st.1.reverse

/-- Validity of an operator token for the round-trip statement: a phrase
operator carries an explicit distance in signed 16-bit range, any other
operator carries no distance (the encoder writes none for it). -/
def validOperatorB (op : Operator) : Bool :=
  if op.operator = .phrase then
    match op.distance with
    | some d => decide (-32768 ≤ d) && decide (d ≤ 32767)
    | none => false
  else
    match op.distance with
    | some _ => false
    | none => true

/-- Validity of a value token for the round-trip statement: weight within the
4-bit mask, flag byte in u8 range, text valid UTF-8 without an embedded 0 and
at most 2047 bytes, and the derived distance field equal to the text length
plus one (as the decoder computes it). -/
def validValueB (v : Value) : Bool :=
  decide (v.weight ≤ 15) && decide (v.pfx < 256) && utf8Valid v.text
    && decide (0 ∉ v.text) && decide (v.text.length ≤ 2047)
    && decide (v.distance = (v.text.length : Int) + 1)

/-- Validity of an entry for the round-trip statement. -/
def validEntryB : Entry → Bool
  | .operator op => validOperatorB op
  | .value v => validValueB v

/-! ## Helper lemmas about the byte readers -/

theorem readUntil0_no_zero : ∀ {l : List Nat}, 0 ∉ l → readUntil0 l = (l, []) := by
  intro l
  induction l with
  | nil => intro _; rfl
  | cons b t ih =>
    intro h
    rw [List.mem_cons, not_or] at h
    have hb : b ≠ 0 := fun hb => h.1 hb.symm
    simp [readUntil0, hb, ih h.2]

theorem readUntil0_append : ∀ {l : List Nat}, 0 ∉ l → ∀ r : List Nat,
    readUntil0 (l ++ 0 :: r) = (l ++ [0], r) := by
  intro l
  induction l with
  | nil => intro _ r; simp [readUntil0]
  | cons b t ih =>
    intro h r
    rw [List.mem_cons, not_or] at h
    have hb : b ≠ 0 := fun hb => h.1 hb.symm
    simp [readUntil0, hb, ih h.2 r]

theorem readUntil0_split : ∀ l : List Nat, (readUntil0 l).1 ++ (readUntil0 l).2 = l := by
  intro l
  induction l with
  | nil => rfl
  | cons b t ih =>
    by_cases hb : b = 0
    · simp [readUntil0, hb]
    · simp [readUntil0, hb, ih]

theorem readUntil0_extend (e : List Nat) :
    ∀ {l : List Nat}, (readUntil0 l).2 ≠ [] →
      readUntil0 (l ++ e) = ((readUntil0 l).1, (readUntil0 l).2 ++ e) := by
  intro l
  induction l with
  | nil => intro h; exact absurd rfl h
  | cons b t ih =>
    intro h
    by_cases hb : b = 0
    · simp [readUntil0, hb]
    · simp only [readUntil0, hb, if_false, ite_false] at h
      simp [readUntil0, hb, ih h]

theorem utf8Valid_replicate97 : ∀ n : Nat, utf8Valid (List.replicate n 97) = true := by
  intro n
  induction n with
  | zero => rfl
  | succ k ih =>
    unfold utf8Valid at ih ⊢
    rw [List.replicate_succ, utf8ValidFrom, if_pos (by norm_num : (97 : Nat) ≤ 127)]
    exact ih

theorem readI16be_i16be {d : Int} (h1 : -32768 ≤ d) (h2 : d ≤ 32767) (r : List Nat) :
    readI16be (i16be d ++ r) = .ok (d, r) := by
  have hnn : 0 ≤ d % 65536 := Int.emod_nonneg d (by norm_num)
  have hco : ((d % 65536).toNat : Int) = d % 65536 := Int.toNat_of_nonneg hnn
  have hcase : d % 65536 = d ∨ d % 65536 = d + 65536 := by omega
  unfold i16be readI16be
  simp only [List.cons_append, List.nil_append]
  have hsplit : (d % 65536).toNat / 256 * 256 + (d % 65536).toNat % 256
      = (d % 65536).toNat := by omega
  rw [hsplit]
  have : (if ((d % 65536).toNat) < 32768 then (((d % 65536).toNat : Nat) : Int)
      else (((d % 65536).toNat : Nat) : Int) - 65536) = d := by
    split_ifs with h <;> omega
  rw [this]

theorem readU32be_u32be {n : Nat} (h : n < 4294967296) (r : List Nat) :
    readU32be (u32be n ++ r) = .ok (n, r) := by
  unfold u32be readU32be
  simp only [List.cons_append, List.nil_append]
  have : ((n / 16777216 % 256 * 256 + n / 65536 % 256) * 256 + n / 256 % 256) * 256
      + n % 256 = n := by omega
  rw [this]

theorem readU32be_error {l : List Nat} {e : DecErr} (h : readU32be l = .error e) :
    e = .eof := by
  rcases l with _ | ⟨b0, _ | ⟨b1, _ | ⟨b2, _ | ⟨b3, r⟩⟩⟩⟩ <;>
      simp only [readU32be, Except.error.injEq] at h <;> try exact h.symm
  exact Except.noConfusion h

theorem readU32be_ok_shape {bytes : List Nat} {n : Nat} {rem : List Nat}
    (h : readU32be bytes = .ok (n, rem)) :
    ∃ b0 b1 b2 b3, bytes = b0 :: b1 :: b2 :: b3 :: rem := by
  rcases bytes with _ | ⟨b0, _ | ⟨b1, _ | ⟨b2, _ | ⟨b3, r⟩⟩⟩⟩ <;> simp [readU32be] at h
  exact ⟨b0, b1, b2, b3, by rw [h.2]⟩

theorem readU32be_extend {bytes : List Nat} {n : Nat} {rem : List Nat}
    (h : readU32be bytes = .ok (n, rem)) (extra : List Nat) :
    readU32be (bytes ++ extra) = .ok (n, rem ++ extra) := by
  rcases bytes with _ | ⟨b0, _ | ⟨b1, _ | ⟨b2, _ | ⟨b3, r⟩⟩⟩⟩ <;> simp [readU32be] at h ⊢
  exact ⟨h.1, by rw [h.2]⟩

/-- Branch selection of `decodeEntry` on a nonempty input. -/
theorem decodeEntry_cons (b : Nat) (r1 : List Nat) :
    decodeEntry (b :: r1) =
      if b = 2 then decodeOperatorEntry r1
      else if b = 1 then decodeValueEntry r1
      else .ok (none, r1) := rfl

/-- Unfolding of the operator arm on a nonempty input. -/
theorem decodeOperatorEntry_cons (c : Nat) (r2 : List Nat) :
    decodeOperatorEntry (c :: r2) =
      match operatorsTryFrom (toI8 c) with
      | none => .error .invalidOperator
      | some opType =>
        if r2.length = 1 then .error .trailingOperator
        else if opType = .phrase then
          match readI16be r2 with
          | .error e => .error e
          | .ok (d, r3) => .ok (some (.operator ⟨opType, some d⟩), r3)
        else .ok (some (.operator ⟨opType, none⟩), r2) := rfl

/-- Unfolding of the value arm when both the weight and the flag byte are
present. -/
theorem decodeValueEntry_cons (w p : Nat) (r3 : List Nat) :
    decodeValueEntry (w :: p :: r3) =
      (if utf8Valid (readUntil0 r3).1.dropLast then
        if (readUntil0 r3).1.dropLast.length ≤ 32767 then
          if 15 < w then .error .invalidWeight
          else if 2047 < (readUntil0 r3).1.dropLast.length then .error .operandTooLong
          else .ok (some (.value ⟨w, (readUntil0 r3).1.dropLast, p,
            ((readUntil0 r3).1.dropLast.length : Int) + 1⟩), (readUntil0 r3).2)
        else .error .panicOverflow
      else .error .utf8Error) := rfl

/-- Value-entry evaluation of `decodeEntry` when the terminating 0 is present:
the weight and length checks are left as conditionals. -/
theorem decodeEntry_value_eval (w p : Nat) (text rest : List Nat) (h0 : 0 ∉ text)
    (hu : utf8Valid text = true) (hlen : text.length ≤ 32767) :
    decodeEntry (1 :: w :: p :: (text ++ 0 :: rest)) =
      if 15 < w then .error .invalidWeight
      else if 2047 < text.length then .error .operandTooLong
      else .ok (some (.value ⟨w, text, p, (text.length : Int) + 1⟩), rest) := by
  have hru := readUntil0_append h0 rest
  rw [decodeEntry_cons, if_neg (by norm_num : ¬(1 : Nat) = 2), if_pos rfl,
    decodeValueEntry_cons, hru]
  simp [hu, hlen]

/-- Value-entry evaluation of `decodeEntry` when the input ends before any
terminating 0: `read_until` returns everything read without error and the
trailing `pop` drops the final byte, so no truncation error arises. -/
theorem decodeEntry_value_eval_eof (w p : Nat) (text : List Nat) (h0 : 0 ∉ text)
    (hu : utf8Valid text.dropLast = true) (hlen : text.dropLast.length ≤ 32767) :
    decodeEntry (1 :: w :: p :: text) =
      if 15 < w then .error .invalidWeight
      else if 2047 < text.dropLast.length then .error .operandTooLong
      else .ok (some (.value ⟨w, text.dropLast, p, (text.dropLast.length : Int) + 1⟩), []) := by
  have hru := readUntil0_no_zero h0
  rw [decodeEntry_cons, if_neg (by norm_num : ¬(1 : Nat) = 2), if_pos rfl,
    decodeValueEntry_cons, hru]
  have hlen2 : text.length - 1 ≤ 32767 := by
    have h3 := List.length_dropLast text
    omega
  simp [hu, hlen2]

theorem readU8_ok {l : List Nat} {b : Nat} {r : List Nat} (h : readU8 l = .ok (b, r)) :
    l = b :: r := by
  rcases l with _ | ⟨x, t⟩
  · exact Except.noConfusion h
  · rw [readU8, Except.ok.injEq, Prod.mk.injEq] at h
    rw [h.1, h.2]

theorem readU8_error {l : List Nat} {e : DecErr} (h : readU8 l = .error e) : e = .eof := by
  rcases l with _ | ⟨x, t⟩
  · exact (Except.error.inj h).symm
  · exact Except.noConfusion h

theorem readI16be_error {l : List Nat} {e : DecErr} (h : readI16be l = .error e) :
    e = .eof := by
  rcases l with _ | ⟨b0, _ | ⟨b1, r⟩⟩
  · exact (Except.error.inj h).symm
  · exact (Except.error.inj h).symm
  · exact Except.noConfusion h

/-- Positive half of the trailing-operator behaviour: a valid operator code
followed by exactly one byte (the source condition position equals size
minus one) makes the decoder fail with the trailing-operator error. -/
theorem decodeEntry_trailing_pos (c : Nat) (rest : List Nat)
    (hc : (operatorsTryFrom (toI8 c)).isSome) (hl : rest.length = 1) :
    decodeEntry (2 :: c :: rest) = .error .trailingOperator := by
  obtain ⟨op, hop⟩ := Option.isSome_iff_exists.mp hc
  rw [decodeEntry_cons, if_pos rfl, decodeOperatorEntry_cons]
  simp [hop, hl]

/-- The only errors the operator arm can raise. -/
theorem decodeOperatorEntry_errs {r1 : List Nat} {e : DecErr}
    (h : decodeOperatorEntry r1 = .error e) :
    e = .eof ∨ e = .invalidOperator ∨ e = .trailingOperator := by
  rcases r1 with _ | ⟨c, r2⟩
  · exact Or.inl (Except.error.inj h).symm
  rw [decodeOperatorEntry_cons] at h
  split at h
  · exact Or.inr (Or.inl (Except.error.inj h).symm)
  · split at h
    · exact Or.inr (Or.inr (Except.error.inj h).symm)
    · split at h
      · split at h
        · rename_i e2 heq2
          exact Or.inl ((Except.error.inj h).symm.trans (readI16be_error heq2))
        · exact Except.noConfusion h
      · exact Except.noConfusion h

/-- The only errors the value arm can raise. -/
theorem decodeValueEntry_errs {r1 : List Nat} {e : DecErr}
    (h : decodeValueEntry r1 = .error e) :
    e = .eof ∨ e = .utf8Error ∨ e = .panicOverflow ∨ e = .invalidWeight ∨
      e = .operandTooLong := by
  rcases r1 with _ | ⟨w, _ | ⟨p0, r3⟩⟩
  · exact Or.inl (Except.error.inj h).symm
  · exact Or.inl (Except.error.inj h).symm
  rw [decodeValueEntry_cons] at h
  split at h
  · split at h
    · split at h
      · exact Or.inr (Or.inr (Or.inr (Or.inl (Except.error.inj h).symm)))
      · split at h
        · exact Or.inr (Or.inr (Or.inr (Or.inr (Except.error.inj h).symm)))
        · exact Except.noConfusion h
    · exact Or.inr (Or.inr (Or.inl (Except.error.inj h).symm))
  · exact Or.inr (Or.inl (Except.error.inj h).symm)

/-- The trailing-operator error can only arise from an operator entry whose
valid code byte is followed by exactly one byte. -/
theorem decodeOperatorEntry_trailing_shape {r1 : List Nat}
    (h : decodeOperatorEntry r1 = .error .trailingOperator) :
    ∃ c rest, r1 = c :: rest ∧ (operatorsTryFrom (toI8 c)).isSome ∧
      rest.length = 1 := by
  rcases r1 with _ | ⟨c, r2⟩
  · exact absurd h (by decide)
  rw [decodeOperatorEntry_cons] at h
  split at h
  · exact absurd h (by decide)
  · rename_i opType heq
    split at h
    · rename_i hlen
      exact ⟨c, r2, rfl, by rw [heq]; rfl, hlen⟩
    · split at h
      · split at h
        · rename_i e2 heq2
          rw [readI16be_error heq2] at h
          exact absurd h (by decide)
        · exact Except.noConfusion h
      · exact Except.noConfusion h

/-- Lifted version: the trailing-operator error can only arise from a
discriminator 2, a valid operator code and exactly one byte after it. -/
theorem decodeEntry_trailing_shape {rem : List Nat}
    (h : decodeEntry rem = .error .trailingOperator) :
    ∃ c rest, rem = 2 :: c :: rest ∧ (operatorsTryFrom (toI8 c)).isSome ∧
      rest.length = 1 := by
  rcases rem with _ | ⟨b, r1⟩
  · exact absurd h (by decide)
  rw [decodeEntry_cons] at h
  by_cases hb2 : b = 2
  · rw [if_pos hb2] at h
    obtain ⟨c, rest, hshape, hc, hl⟩ := decodeOperatorEntry_trailing_shape h
    exact ⟨c, rest, by rw [hb2, hshape], hc, hl⟩
  · rw [if_neg hb2] at h
    by_cases hb1 : b = 1
    · rw [if_pos hb1] at h
      rcases decodeValueEntry_errs h with h1 | h1 | h1 | h1 | h1 <;>
        exact absurd h1 (by decide)
    · rw [if_neg hb1] at h
      exact Except.noConfusion h

/-- The operand-too-long error can only arise from the value arm, and asserts
that the decoded text is longer than 2047 bytes. -/
theorem decodeValueEntry_operand_shape {r1 : List Nat}
    (h : decodeValueEntry r1 = .error .operandTooLong) :
    2047 < ((readUntil0 (r1.drop 2)).1.dropLast).length := by
  rcases r1 with _ | ⟨w, _ | ⟨p0, r3⟩⟩
  · exact absurd h (by decide)
  · exact absurd (Except.error.inj h) (by decide)
  rw [decodeValueEntry_cons] at h
  split at h
  · split at h
    · split at h
      · exact absurd h (by decide)
      · split at h
        · rename_i hcond
          simpa using hcond
        · exact Except.noConfusion h
    · exact absurd h (by decide)
  · exact absurd h (by decide)

/-- Lifted version for `decodeEntry`: the operand-too-long error implies the
text read from the fourth byte onward exceeds 2047 bytes. -/
theorem decodeEntry_operand_shape {rem : List Nat}
    (h : decodeEntry rem = .error .operandTooLong) :
    2047 < ((readUntil0 (rem.drop 3)).1.dropLast).length := by
  rcases rem with _ | ⟨b, r1⟩
  · exact absurd h (by decide)
  rw [decodeEntry_cons] at h
  by_cases hb2 : b = 2
  · rw [if_pos hb2] at h
    rcases decodeOperatorEntry_errs h with h1 | h1 | h1 <;> exact absurd h1 (by decide)
  · rw [if_neg hb2] at h
    by_cases hb1 : b = 1
    · rw [if_pos hb1] at h
      simpa using decodeValueEntry_operand_shape h
    · rw [if_neg hb1] at h
      exact Except.noConfusion h

/-- The remainder returned by the operator arm is a suffix of its input. -/
theorem decodeOperatorEntry_suffix {r1 : List Nat} {oe : Option Entry}
    {rem2 : List Nat} (h : decodeOperatorEntry r1 = .ok (oe, rem2)) :
    ∃ p, r1 = p ++ rem2 := by
  rcases r1 with _ | ⟨c, r2⟩
  · exact Except.noConfusion h
  rw [decodeOperatorEntry_cons] at h
  split at h
  · exact Except.noConfusion h
  · split at h
    · exact Except.noConfusion h
    · split at h
      · split at h
        · exact Except.noConfusion h
        · rename_i d r3 heq2
          rw [Except.ok.injEq, Prod.mk.injEq] at h
          rcases r2 with _ | ⟨d0, _ | ⟨d1, r4⟩⟩
          · exact Except.noConfusion heq2
          · exact Except.noConfusion heq2
          · rw [readI16be, Except.ok.injEq, Prod.mk.injEq] at heq2
            refine ⟨[c, d0, d1], ?_⟩
            rw [← h.2, ← heq2.2]
            rfl
      · rw [Except.ok.injEq, Prod.mk.injEq] at h
        exact ⟨[c], by rw [← h.2]; rfl⟩

/-- The remainder returned by the value arm is a suffix of its input. -/
theorem decodeValueEntry_suffix {r1 : List Nat} {oe : Option Entry}
    {rem2 : List Nat} (h : decodeValueEntry r1 = .ok (oe, rem2)) :
    ∃ p, r1 = p ++ rem2 := by
  rcases r1 with _ | ⟨w, _ | ⟨p0, r3⟩⟩
  · exact Except.noConfusion h
  · exact Except.noConfusion h
  rw [decodeValueEntry_cons] at h
  split at h
  · split at h
    · split at h
      · exact Except.noConfusion h
      · split at h
        · exact Except.noConfusion h
        · rw [Except.ok.injEq, Prod.mk.injEq] at h
          refine ⟨w :: p0 :: (readUntil0 r3).1, ?_⟩
          rw [← h.2]
          simp only [List.cons_append]
          rw [readUntil0_split r3]
    · exact Except.noConfusion h
  · exact Except.noConfusion h

/-- The remainder returned by a successful `decodeEntry` is a suffix of the
input: the cursor only moves forward. -/
theorem decodeEntry_suffix {rem : List Nat} {oe : Option Entry} {rem2 : List Nat}
    (h : decodeEntry rem = .ok (oe, rem2)) : ∃ p, rem = p ++ rem2 := by
  rcases rem with _ | ⟨b, r1⟩
  · exact Except.noConfusion h
  rw [decodeEntry_cons] at h
  by_cases hb2 : b = 2
  · rw [if_pos hb2] at h
    obtain ⟨p, hp⟩ := decodeOperatorEntry_suffix h
    exact ⟨b :: p, by rw [hp]; rfl⟩
  · rw [if_neg hb2] at h
    by_cases hb1 : b = 1
    · rw [if_pos hb1] at h
      obtain ⟨p, hp⟩ := decodeValueEntry_suffix h
      exact ⟨b :: p, by rw [hp]; rfl⟩
    · rw [if_neg hb1] at h
      rw [Except.ok.injEq, Prod.mk.injEq] at h
      exact ⟨[b], by rw [← h.2]; rfl⟩

/-- The remainder returned by a successful decode loop is a suffix of its
input. -/
theorem decodeEntries_suffix : ∀ (n : Nat) {rem : List Nat} {es : List Entry}
    {remF : List Nat}, decodeEntries n rem = .ok (es, remF) → ∃ p, rem = p ++ remF := by
  intro n
  induction n with
  | zero =>
    intro rem es remF h
    simp only [decodeEntries, Except.ok.injEq, Prod.mk.injEq] at h
    exact ⟨[], by rw [← h.2]; rfl⟩
  | succ k ih =>
    intro rem es remF h
    simp only [decodeEntries] at h
    split at h
    · exact Except.noConfusion h
    · rename_i oe rem1 heq
      split at h
      · exact Except.noConfusion h
      · rename_i es1 remF1 heq2
        rw [Except.ok.injEq, Prod.mk.injEq] at h
        obtain ⟨p1, hp1⟩ := decodeEntry_suffix heq
        obtain ⟨p2, hp2⟩ := ih heq2
        exact ⟨p1 ++ p2, by rw [hp1, hp2, ← h.2, List.append_assoc]⟩

/-- A decode-loop failure is a failure of one entry decode on a suffix of the
loop input. -/
theorem decodeEntries_error_suffix : ∀ (n : Nat) {rem : List Nat} {e : DecErr},
    decodeEntries n rem = .error e →
    ∃ p rem2, rem = p ++ rem2 ∧ decodeEntry rem2 = .error e := by
  intro n
  induction n with
  | zero => intro rem e h; exact Except.noConfusion h
  | succ k ih =>
    intro rem e h
    simp only [decodeEntries] at h
    split at h
    · rename_i e1 heq
      injection h with h1
      subst h1
      exact ⟨[], rem, by simp, heq⟩
    · rename_i oe rem1 heq
      split at h
      · rename_i e2 heq2
        injection h with h1
        subst h1
        obtain ⟨p2, rem2, hp2, hde2⟩ := ih heq2
        obtain ⟨p1, hp1⟩ := decodeEntry_suffix heq
        exact ⟨p1 ++ p2, rem2, by rw [hp1, hp2, List.append_assoc], hde2⟩
      · exact Except.noConfusion h

/-- Decoding a buffer whose four count-header bytes declare one entry reduces
to decoding that one entry. -/
theorem pgTsQueryTryFrom_one (X : List Nat) :
    pgTsQueryTryFrom ([0, 0, 0, 1] ++ X) =
      match decodeEntries 1 X with
      | .error e => .error e
      | .ok (es, _) => .ok ⟨es⟩ := by
  simp [pgTsQueryTryFrom, readU32be]

theorem operatorsTryFrom_code (o : Operators) :
    operatorsTryFrom (toI8 o.code) = some o := by
  cases o <;> rfl

theorem two_le_encodeEntry_length (e : Entry) : 2 ≤ (encodeEntry e).length := by
  cases e with
  | operator op =>
    by_cases h : op.operator = .phrase <;> simp [encodeEntry, h, i16be]
  | value v =>
    simp only [encodeEntry, List.append_assoc, List.length_append, List.length_cons,
      List.length_nil]
    omega

theorem flatten_encode_length_ne_one (es : List Entry) :
    ((es.map encodeEntry).flatten).length ≠ 1 := by
  cases es with
  | nil => simp
  | cons e tl =>
    have h := two_le_encodeEntry_length e
    simp only [List.map_cons, List.flatten_cons, List.length_append]
    omega

/-- A non-phrase operator entry decodes from its two encoded bytes, provided
the continuation is not exactly one byte long. -/
theorem decodeEntry_op_eval (o : Operators) (rest : List Nat) (hr : rest.length ≠ 1)
    (hnp : o ≠ .phrase) :
    decodeEntry (2 :: o.code :: rest) = .ok (some (.operator ⟨o, none⟩), rest) := by
  cases o
  · simp [decodeEntry_cons, decodeOperatorEntry_cons, operatorsTryFrom, toI8,
      Operators.code, hr]
  · simp [decodeEntry_cons, decodeOperatorEntry_cons, operatorsTryFrom, toI8,
      Operators.code, hr]
  · simp [decodeEntry_cons, decodeOperatorEntry_cons, operatorsTryFrom, toI8,
      Operators.code, hr]
  · exact absurd rfl hnp

/-- A phrase operator entry decodes from its code byte and two distance
bytes, for any distance in signed 16-bit range. -/
theorem decodeEntry_phrase_eval (d : Int) (h1 : -32768 ≤ d) (h2 : d ≤ 32767)
    (rest : List Nat) :
    decodeEntry (2 :: Operators.phrase.code :: (i16be d ++ rest)) =
      .ok (some (.operator ⟨.phrase, some d⟩), rest) := by
  have h16 := readI16be_i16be h1 h2 rest
  have hlen : (i16be d ++ rest).length = rest.length + 2 := by
    simp [i16be]
  simp [decodeEntry_cons, decodeOperatorEntry_cons, operatorsTryFrom, toI8,
    Operators.code, h16, hlen]

/-- One encoded entry decodes back to itself in front of any continuation
that is not exactly one byte long. -/
theorem decodeEntry_encode {e : Entry} (he : validEntryB e = true)
    {rest : List Nat} (hr : rest.length ≠ 1) :
    decodeEntry (encodeEntry e ++ rest) = .ok (some e, rest) := by
  cases e with
  | operator op =>
    obtain ⟨oo, od⟩ := op
    by_cases hph : oo = .phrase
    · subst hph
      cases od with
      | none => simp [validEntryB, validOperatorB] at he
      | some d =>
        simp [validEntryB, validOperatorB] at he
        rw [show encodeEntry (.operator ⟨.phrase, some d⟩) ++ rest =
          2 :: Operators.phrase.code :: (i16be d ++ rest) from by simp [encodeEntry]]
        exact decodeEntry_phrase_eval d he.1 he.2 rest
    · cases od with
      | some d => simp [validEntryB, validOperatorB, hph] at he
      | none =>
        rw [show encodeEntry (.operator ⟨oo, none⟩) ++ rest = 2 :: oo.code :: rest from by
          simp [encodeEntry, hph]]
        exact decodeEntry_op_eval oo rest hr hph
  | value v =>
    obtain ⟨w, text, pfx0, dist⟩ := v
    simp only [validEntryB, validValueB, Bool.and_eq_true, decide_eq_true_eq] at he
    obtain ⟨⟨⟨⟨⟨hw, hp⟩, hu⟩, h0⟩, hlen⟩, hdist⟩ := he
    have heval := decodeEntry_value_eval w pfx0 text rest h0 hu (by omega)
    rw [show encodeEntry (.value ⟨w, text, pfx0, dist⟩) ++ rest =
      1 :: (w % 256) :: (pfx0 % 256) :: (text ++ 0 :: rest) from by simp [encodeEntry]]
    rw [Nat.mod_eq_of_lt (by omega : w < 256), Nat.mod_eq_of_lt hp]
    rw [heval]
    rw [if_neg (by omega), if_neg (by omega), hdist]

/-- The decode loop inverts the encoder on a list of valid entries. -/
theorem decodeEntries_encode : ∀ {es : List Entry},
    (∀ x ∈ es, validEntryB x = true) →
    decodeEntries es.length ((es.map encodeEntry).flatten) = .ok (es, []) := by
  intro es
  induction es with
  | nil => intro _; rfl
  | cons e tl ih =>
    intro h
    have he := h e (List.mem_cons_self e tl)
    have htl : ∀ x ∈ tl, validEntryB x = true := fun x hx => h x (List.mem_cons_of_mem e hx)
    simp only [List.length_cons, List.map_cons, List.flatten_cons, decodeEntries]
    simp only [decodeEntry_encode he (flatten_encode_length_ne_one tl), ih htl]

/-- Evaluation of the operator arm for a valid non-phrase code when the
trailing-operator check does not fire. -/
theorem decodeOperatorEntry_eval_nonphrase {c : Nat} {op : Operators}
    (hop : operatorsTryFrom (toI8 c) = some op) (hnp : op ≠ .phrase)
    {r2 : List Nat} (hl : r2.length ≠ 1) :
    decodeOperatorEntry (c :: r2) = .ok (some (.operator ⟨op, none⟩), r2) := by
  rw [decodeOperatorEntry_cons]
  simp [hop, hl, hnp]

/-- Evaluation of the operator arm for a valid phrase code with both
distance bytes present. -/
theorem decodeOperatorEntry_eval_phrase {c : Nat}
    (hop : operatorsTryFrom (toI8 c) = some .phrase) (d0 d1 : Nat) (r4 : List Nat) :
    decodeOperatorEntry (c :: d0 :: d1 :: r4) =
      .ok (some (.operator ⟨.phrase, some (if d0 * 256 + d1 < 32768
        then ((d0 * 256 + d1 : Nat) : Int)
        else ((d0 * 256 + d1 : Nat) : Int) - 65536)⟩), r4) := by
  rw [decodeOperatorEntry_cons]
  simp [hop, readI16be]

/-- Appending bytes to the input of a successful `decodeEntry` that leaves a
nonempty remainder does not change the decoded entry and appends to the
remainder.  The nonempty remainder rules out the two end-of-buffer
sensitivities: the trailing-operator position check and a text field that
ran to end of input without a terminator. -/
theorem decodeEntry_extend : ∀ {rem : List Nat} {oe : Option Entry} {rem2 : List Nat},
    decodeEntry rem = .ok (oe, rem2) → rem2 ≠ [] → ∀ extra : List Nat,
    decodeEntry (rem ++ extra) = .ok (oe, rem2 ++ extra) := by
  intro rem oe rem2 h hne extra
  rcases rem with _ | ⟨b, r1⟩
  · exact Except.noConfusion h
  rw [decodeEntry_cons] at h
  rw [List.cons_append, decodeEntry_cons]
  by_cases hb2 : b = 2
  · rw [if_pos hb2] at h ⊢
    rcases r1 with _ | ⟨c, r2⟩
    · exact Except.noConfusion h
    cases hop : operatorsTryFrom (toI8 c) with
    | none =>
      rw [decodeOperatorEntry_cons] at h
      simp only [hop] at h
      exact Except.noConfusion h
    | some op =>
      by_cases hph : op = .phrase
      · subst hph
        rcases r2 with _ | ⟨d0, _ | ⟨d1, r4⟩⟩
        · rw [decodeOperatorEntry_cons] at h
          simp [hop, readI16be] at h
        · rw [decodeOperatorEntry_cons] at h
          simp [hop] at h
        · rw [decodeOperatorEntry_eval_phrase hop d0 d1 r4] at h
          rw [Except.ok.injEq, Prod.mk.injEq] at h
          rw [show (c :: d0 :: d1 :: r4) ++ extra = c :: d0 :: d1 :: (r4 ++ extra)
            from rfl]
          rw [decodeOperatorEntry_eval_phrase hop d0 d1 (r4 ++ extra)]
          rw [← h.1, ← h.2]
      · have hl1 : r2.length ≠ 1 := by
          intro hc
          rw [decodeOperatorEntry_cons] at h
          simp only [hop] at h
          rw [if_pos hc] at h
          exact Except.noConfusion h
        rw [decodeOperatorEntry_eval_nonphrase hop hph hl1] at h
        rw [Except.ok.injEq, Prod.mk.injEq] at h
        have hr2 : r2 ≠ [] := by rw [h.2]; exact hne
        have hpos : 0 < r2.length := List.length_pos.mpr hr2
        have hl2 : (r2 ++ extra).length ≠ 1 := by
          simp only [List.length_append]
          omega
        rw [show (c :: r2) ++ extra = c :: (r2 ++ extra) from rfl]
        rw [decodeOperatorEntry_eval_nonphrase hop hph hl2]
        rw [← h.1, ← h.2]
  · rw [if_neg hb2] at h ⊢
    by_cases hb1 : b = 1
    · rw [if_pos hb1] at h ⊢
      rcases r1 with _ | ⟨w, _ | ⟨p0, r3⟩⟩
      · exact Except.noConfusion h
      · exact Except.noConfusion h
      rw [decodeValueEntry_cons] at h
      simp only [List.cons_append]
      rw [decodeValueEntry_cons]
      split at h
      · rename_i hu
        split at h
        · rename_i hl32
          split at h
          · exact Except.noConfusion h
          · rename_i hw15
            split at h
            · exact Except.noConfusion h
            · rename_i hlong
              rw [Except.ok.injEq, Prod.mk.injEq] at h
              have hne2 : (readUntil0 r3).2 ≠ [] := by rw [h.2]; exact hne
              have hext := readUntil0_extend extra hne2
              simp only [hext]
              rw [if_pos hu, if_pos hl32, if_neg hw15, if_neg hlong]
              rw [← h.1, ← h.2]
        · exact Except.noConfusion h
      · exact Except.noConfusion h
    · rw [if_neg hb1] at h ⊢
      rw [Except.ok.injEq, Prod.mk.injEq] at h
      rw [← h.1, ← h.2]

/-- Loop version of `decodeEntry_extend`: appending bytes after a decode that
leaves a nonempty remainder changes nothing. -/
theorem decodeEntries_extend : ∀ (n : Nat) {rem : List Nat} {es : List Entry}
    {remF : List Nat}, decodeEntries n rem = .ok (es, remF) → remF ≠ [] →
    ∀ extra : List Nat,
    decodeEntries n (rem ++ extra) = .ok (es, remF ++ extra) := by
  intro n
  induction n with
  | zero =>
    intro rem es remF h hne extra
    simp only [decodeEntries, Except.ok.injEq, Prod.mk.injEq] at h ⊢
    exact ⟨h.1, by rw [← h.2]⟩
  | succ k ih =>
    intro rem es remF h hne extra
    simp only [decodeEntries] at h ⊢
    split at h
    · exact Except.noConfusion h
    · rename_i oe rem1 heq
      split at h
      · exact Except.noConfusion h
      · rename_i es1 remF1 heq2
        rw [Except.ok.injEq, Prod.mk.injEq] at h
        have hne1 : remF1 ≠ [] := by rw [h.2]; exact hne
        have hrem1 : rem1 ≠ [] := by
          obtain ⟨p, hp⟩ := decodeEntries_suffix k heq2
          rw [hp]
          intro hcontra
          exact hne1 (List.append_eq_nil.mp hcontra).2
        simp only [decodeEntry_extend heq hrem1 extra, ih heq2 hne1 extra]
        rw [h.1, h.2]

/-- The operator arm only produces operator entries. -/
theorem decodeOperatorEntry_ok_operator {r1 : List Nat} {oe : Option Entry}
    {rem2 : List Nat} (h : decodeOperatorEntry r1 = .ok (oe, rem2)) :
    ∃ op : Operator, oe = some (.operator op) := by
  rcases r1 with _ | ⟨c, r2⟩
  · exact Except.noConfusion h
  rw [decodeOperatorEntry_cons] at h
  split at h
  · exact Except.noConfusion h
  · split at h
    · exact Except.noConfusion h
    · split at h
      · split at h
        · exact Except.noConfusion h
        · rw [Except.ok.injEq, Prod.mk.injEq] at h
          exact ⟨_, h.1.symm⟩
      · rw [Except.ok.injEq, Prod.mk.injEq] at h
        exact ⟨_, h.1.symm⟩

/-- Every value produced by the value arm carries the derived distance
field. -/
theorem decodeValueEntry_distance {r1 : List Nat} {oe : Option Entry}
    {rem2 : List Nat} (h : decodeValueEntry r1 = .ok (oe, rem2)) {v : Value}
    (hv : oe = some (.value v)) : v.distance = (v.text.length : Int) + 1 := by
  rcases r1 with _ | ⟨w, _ | ⟨p0, r3⟩⟩
  · exact Except.noConfusion h
  · exact Except.noConfusion h
  rw [decodeValueEntry_cons] at h
  split at h
  · split at h
    · split at h
      · exact Except.noConfusion h
      · split at h
        · exact Except.noConfusion h
        · rw [Except.ok.injEq, Prod.mk.injEq] at h
          have h2 := h.1.trans hv
          rw [Option.some.injEq] at h2
          have h3 := Entry.value.inj h2
          rw [← h3]
    · exact Except.noConfusion h
  · exact Except.noConfusion h

/-- Every value entry produced by one entry decode carries the derived
distance field. -/
theorem decodeEntry_value_distance {rem : List Nat} {oe : Option Entry}
    {rem2 : List Nat} (h : decodeEntry rem = .ok (oe, rem2)) {v : Value}
    (hv : oe = some (.value v)) : v.distance = (v.text.length : Int) + 1 := by
  rcases rem with _ | ⟨b, r1⟩
  · exact Except.noConfusion h
  rw [decodeEntry_cons] at h
  by_cases hb2 : b = 2
  · rw [if_pos hb2] at h
    obtain ⟨op, hop⟩ := decodeOperatorEntry_ok_operator h
    rw [hop] at hv
    simp at hv
  · rw [if_neg hb2] at h
    by_cases hb1 : b = 1
    · rw [if_pos hb1] at h
      exact decodeValueEntry_distance h hv
    · rw [if_neg hb1] at h
      rw [Except.ok.injEq, Prod.mk.injEq] at h
      rw [← h.1] at hv
      simp at hv

/-- Every value entry collected by the decode loop carries the derived
distance field. -/
theorem decodeEntries_value_distance : ∀ (n : Nat) {rem : List Nat} {es : List Entry}
    {remF : List Nat}, decodeEntries n rem = .ok (es, remF) →
    ∀ v : Value, Entry.value v ∈ es → v.distance = (v.text.length : Int) + 1 := by
  intro n
  induction n with
  | zero =>
    intro rem es remF h v hv
    simp only [decodeEntries, Except.ok.injEq, Prod.mk.injEq] at h
    rw [← h.1] at hv
    simp at hv
  | succ k ih =>
    intro rem es remF h v hv
    simp only [decodeEntries] at h
    split at h
    · exact Except.noConfusion h
    · rename_i oe rem1 heq
      split at h
      · exact Except.noConfusion h
      · rename_i es1 remF1 heq2
        cases oe with
        | none =>
          rw [Except.ok.injEq, Prod.mk.injEq] at h
          rw [← h.1] at hv
          exact ih heq2 v hv
        | some en =>
          rw [Except.ok.injEq, Prod.mk.injEq] at h
          rw [← h.1] at hv
          rcases List.mem_cons.mp hv with h1 | h1
          · exact decodeEntry_value_distance heq (by rw [← h1])
          · exact ih heq2 v h1

/-! ## Theorems about the claims -/

/-- Claim C1, counterexample: the query consisting of a single phrase operator
with absent distance satisfies every value constraint of the claim (vacuously,
it has no value entries), yet decoding its encoding does not return it — the
encoder writes the default distance 1 and the decoder reads it back as an
explicit `some 1`. -/
theorem c1_counterexample :
    pgTsQueryTryFrom (toSql ⟨[.operator ⟨.phrase, none⟩]⟩) ≠
      .ok ⟨[.operator ⟨.phrase, none⟩]⟩ := by
  decide

/-- Claim C2, counterexample: rendering the two-entry sequence with the value
first and the NOT operator last does not produce the bang-quoted form
(bytes 33, 39, 98, 105, 114, 100, 39): the renderer pops entries from the
tail, so it meets the NOT first, on an empty stack, and drops it. -/
theorem c2_counterexample :
    renderInfix [.value ⟨0, [98, 105, 114, 100], 0, 5⟩, .operator ⟨.not, none⟩] ≠
      [33, 39, 98, 105, 114, 100, 39] := by
  decide

/-- Claim C2 as amended: rendering the sequence [Value(bird), Operator(NOT)]
produces the plain quoted word (bytes of quote, b, i, r, d, quote) without
the bang, because the NOT is processed first against an empty stack and is
silently skipped. -/
theorem c2_render :
    renderInfix [.value ⟨0, [98, 105, 114, 100], 0, 5⟩, .operator ⟨.not, none⟩] =
      [39, 98, 105, 114, 100, 39] := by
  decide

/-- Claim C3, counterexample: the buffer 0 0 0 1, 1, 0, 0, 97, 98 is truncated
in the middle of the 0-terminated text field (the terminator never arrives),
yet decoding succeeds — `read_until` returns the bytes read at end of input
without error and the trailing `pop` removes the final data byte, leaving the
one-byte text 97. -/
theorem c3_counterexample :
    pgTsQueryTryFrom [0, 0, 0, 1, 1, 0, 0, 97, 98] =
      .ok ⟨[.value ⟨0, [97], 0, 2⟩]⟩ := by
  decide

/-- Claim C4, counterexample: the five-entry sequence of the claim (values
cat, rat, operator AND, value fat, operator OR, in that storage order) does
not render to the claimed string (bytes of: quoted fat, space, bar, space,
quoted cat, space, ampersand, space, quoted rat).  Processed from the tail,
the OR finds an empty stack, and the AND finds only one operand (which it
consumes and loses), so both operators are dropped. -/
theorem c4_counterexample :
    renderInfix [.value ⟨0, [99, 97, 116], 0, 4⟩, .value ⟨0, [114, 97, 116], 0, 4⟩,
        .operator ⟨.and, none⟩, .value ⟨0, [102, 97, 116], 0, 4⟩,
        .operator ⟨.or, none⟩] ≠
      [39, 102, 97, 116, 39, 32, 124, 32, 39, 99, 97, 116, 39, 32, 38, 32,
        39, 114, 97, 116, 39] := by
  decide

/-- Claim C4 as amended: the claimed five-entry sequence renders to the two
leftover operands joined by a space (bytes of: quoted rat, space, quoted
cat).  Both operators underflow the stack when the entries are processed in
reverse and are dropped, the AND destroying the operand for fat. -/
theorem c4_render :
    renderInfix [.value ⟨0, [99, 97, 116], 0, 4⟩, .value ⟨0, [114, 97, 116], 0, 4⟩,
        .operator ⟨.and, none⟩, .value ⟨0, [102, 97, 116], 0, 4⟩,
        .operator ⟨.or, none⟩] =
      [39, 114, 97, 116, 39, 32, 39, 99, 97, 116, 39] := by
  decide

/-- Claim C5, counterexample: processing NOT, PHRASE(2), value a, value b the
phrase combination happens with running precedence 0 (so the claimed shared
AND/OR rule, tier 4 strictly greater than 0 and not the final entry, demands
parentheses), yet the output is the unparenthesized bang, quoted b, space,
angle-2, space, quoted a — not the parenthesized variant. -/
theorem c5_counterexample :
    renderInfix [.operator ⟨.not, none⟩, .operator ⟨.phrase, some 2⟩,
        .value ⟨0, [97], 0, 2⟩, .value ⟨0, [98], 0, 2⟩] =
      [33, 39, 98, 39, 32, 60, 50, 62, 32, 39, 97, 39] ∧
    renderInfix [.operator ⟨.not, none⟩, .operator ⟨.phrase, some 2⟩,
        .value ⟨0, [97], 0, 2⟩, .value ⟨0, [98], 0, 2⟩] ≠
      [33, 40, 39, 98, 39, 32, 60, 50, 62, 32, 39, 97, 39, 41] := by
  decide

/-- Claim C5 as amended: the PHRASE arm never parenthesizes — for any stack
with at least two operands and for every running precedence and position, it
pushes left, space, connective, space, right unwrapped and sets the running
precedence to 4; the connective is the adjacency arrow for absent distance or
distance 1, and the distance between angle brackets otherwise. -/
theorem c5_phrase_step :
    (∀ (len num pri : Nat) (d : Option Int) (left right : List Nat)
        (s : List (List Nat)),
      renderStep len num (right :: left :: s, pri) (.operator ⟨.phrase, d⟩) =
        ((left ++ [32] ++ phraseConn d ++ [32] ++ right) :: s, 4)) ∧
    phraseConn none = [60, 45, 62] ∧
    phraseConn (some 1) = [60, 45, 62] ∧
    (∀ n : Int, n ≠ 1 → phraseConn (some n) = [60] ++ intDecBytes n ++ [62]) := by
  refine ⟨fun len num pri d left right s => rfl, rfl, rfl, fun n hn => ?_⟩
  simp [phraseConn, hn]

/-- Witness for the amended claim C5 at concrete inputs: a phrase of distance
3 between quoted operands b and a, mid-sequence with running precedence 0. -/
theorem c5_phrase_step_witness :
    renderStep 4 2 ([[39, 97, 39], [39, 98, 39]], 0) (.operator ⟨.phrase, some 3⟩) =
      ([[39, 98, 39, 32, 60, 51, 62, 32, 39, 97, 39]], 4) ∧
    phraseConn (some 3) = [60, 51, 62] := by
  constructor
  · have h := c5_phrase_step.1 4 2 0 (some 3) [39, 98, 39] [39, 97, 39] []
    simpa using h
  · exact c5_phrase_step.2.2.2 3 (by decide)

/-- Claim C6, counterexample: in the buffer 0 0 0 1, 2, 9, 7 the operator
code byte 9 is read with the reader exactly one byte from the end (position
6 of 7), yet decode fails with the invalid-operator error, not the
trailing-operator error — the code validity check runs first. -/
theorem c6_counterexample :
    pgTsQueryTryFrom [0, 0, 0, 1, 2, 9, 7] = .error .invalidOperator ∧
    DecErr.invalidOperator ≠ DecErr.trailingOperator := by
  decide

/-- Claim C7, counterexample: the buffer 0 0 0 1, 2, 1 decodes to the single
NOT operator, but appending one extra byte makes the trailing-operator check
fire (the operator code now sits at position length minus one), so trailing
bytes are not always ignored. -/
theorem c7_counterexample :
    pgTsQueryTryFrom [0, 0, 0, 1, 2, 1] =
      .ok ⟨[.operator ⟨.not, none⟩]⟩ ∧
    pgTsQueryTryFrom [0, 0, 0, 1, 2, 1, 99] = .error .trailingOperator := by
  decide

/-- Evaluation of a one-entry decode loop. -/
theorem decodeEntries_one (X : List Nat) :
    decodeEntries 1 X =
      match decodeEntry X with
      | .error e => .error e
      | .ok (some en, remF) => .ok ([en], remF)
      | .ok (none, remF) => .ok ([], remF) := by
  simp only [decodeEntries]
  split
  · rename_i e heq
    rw [heq]
  · rename_i oe rem1 heq
    rw [heq]
    cases oe <;> rfl

/-- Claim C3 as amended: truncation in a fixed-width field (count header,
discriminator, operator code, weight, prefix) fails with the end-of-input
error; exactly one byte after an operator code gives the trailing-operator
error instead, and zero bytes after a phrase code the end-of-input error;
but truncation inside the 0-terminated text is not detected — decode
succeeds, treating the final byte read as the terminator and dropping it.
(The decoder is total in this model; the 32767-byte length conversion abort
is represented by its own error value.) -/
theorem c3_truncation :
    (∀ b : List Nat, b.length < 4 → pgTsQueryTryFrom b = .error .eof) ∧
    decodeEntry [] = .error .eof ∧
    decodeEntry [2] = .error .eof ∧
    decodeEntry [2, 4] = .error .eof ∧
    (∀ x : Nat, decodeEntry [2, 4, x] = .error .trailingOperator) ∧
    decodeEntry [1] = .error .eof ∧
    (∀ w : Nat, decodeEntry [1, w] = .error .eof) ∧
    (∀ (w p : Nat) (text : List Nat), 0 ∉ text → utf8Valid text.dropLast = true →
      text.length ≤ 2047 → w ≤ 15 →
      decodeEntry (1 :: w :: p :: text) =
        .ok (some (.value ⟨w, text.dropLast, p, (text.dropLast.length : Int) + 1⟩), [])) := by
  refine ⟨?_, rfl, by decide, by decide, ?_, by decide, fun w => rfl, ?_⟩
  · intro b hb
    rcases b with _ | ⟨b0, _ | ⟨b1, _ | ⟨b2, _ | ⟨b3, r⟩⟩⟩⟩
    · rfl
    · rfl
    · rfl
    · rfl
    · exfalso
      simp only [List.length_cons] at hb
      omega
  · intro x
    exact decodeEntry_trailing_pos 4 [x] (by decide) rfl
  · intro w p text h0 hu hlen hw
    have h3 := List.length_dropLast text
    rw [decodeEntry_value_eval_eof w p text h0 hu (by omega)]
    rw [if_neg (by omega), if_neg (by omega)]

/-- Witness for the amended claim C3: a three-byte buffer fails the header
read, and a value entry whose text never reaches a terminator decodes
successfully with the final byte dropped. -/
theorem c3_truncation_witness :
    pgTsQueryTryFrom [0, 0, 3] = .error .eof ∧
    decodeEntry [1, 0, 0, 97, 98] =
      .ok (some (.value ⟨0, ([97, 98] : List Nat).dropLast, 0,
        ((([97, 98] : List Nat).dropLast.length : Nat) : Int) + 1⟩), []) :=
  ⟨c3_truncation.1 [0, 0, 3] (by decide),
   c3_truncation.2.2.2.2.2.2.2 0 0 [97, 98] (by decide) (by decide) (by decide) (by decide)⟩

/-- Claim C6 as amended: reading an operator code byte that maps to a valid
operator with the reader exactly one byte from the end fails with the
trailing-operator error; and whenever decode returns the trailing-operator
error, the buffer contains a discriminator 2 followed by a valid operator
code whose read ends at position length minus one (exactly one byte of the
buffer follows it).  A code byte at that position that does not map to an
operator fails with the invalid-operator error instead. -/
theorem c6_trailing :
    (∀ (c : Nat) (rest : List Nat), (operatorsTryFrom (toI8 c)).isSome →
      rest.length = 1 → decodeEntry (2 :: c :: rest) = .error .trailingOperator) ∧
    (∀ bytes : List Nat, pgTsQueryTryFrom bytes = .error .trailingOperator →
      ∃ pre c rest, bytes = pre ++ 2 :: c :: rest ∧
        (operatorsTryFrom (toI8 c)).isSome ∧ rest.length = 1) := by
  refine ⟨fun c rest hc hl => decodeEntry_trailing_pos c rest hc hl, ?_⟩
  intro bytes h
  unfold pgTsQueryTryFrom at h
  split at h
  · rename_i e1 heq
    rw [readU32be_error heq] at h
    exact absurd h (by decide)
  · rename_i count rem heq
    split at h
    · rename_i e2 heq2
      injection h with h1
      subst h1
      obtain ⟨p1, rem2, hp1, hde⟩ := decodeEntries_error_suffix count heq2
      obtain ⟨c, rest, hshape, hc, hl⟩ := decodeEntry_trailing_shape hde
      obtain ⟨b0, b1, b2, b3, hb⟩ := readU32be_ok_shape heq
      refine ⟨b0 :: b1 :: b2 :: b3 :: p1, c, rest, ?_, hc, hl⟩
      rw [hb, hp1, hshape]
      rfl
    · exact Except.noConfusion h

/-- Witness for the amended claim C6: operator code 1 (NOT) followed by one
byte fails with the trailing-operator error. -/
theorem c6_trailing_witness : decodeEntry [2, 1, 5] = .error .trailingOperator :=
  c6_trailing.1 1 [5] (by decide) rfl

/-- Claim C8 as amended: a value entry whose text exceeds 2047 bytes makes
decode fail with the operand-too-long error provided the earlier checks pass
(the text is valid UTF-8, its length does not overflow the 16-bit conversion,
and the weight byte is at most 15 — otherwise the UTF-8, abort or
invalid-weight outcome takes precedence); conversely the operand-too-long
error is only raised when the decoded text is longer than 2047 bytes, so a
value entry with text of at most 2047 bytes never raises it. -/
theorem c8_operand_too_long :
    (∀ (w p : Nat) (text rest : List Nat), 0 ∉ text → utf8Valid text = true →
      text.length ≤ 32767 → w ≤ 15 → 2047 < text.length →
      decodeEntry (1 :: w :: p :: (text ++ 0 :: rest)) = .error .operandTooLong) ∧
    (∀ rem : List Nat, decodeEntry rem = .error .operandTooLong →
      2047 < ((readUntil0 (rem.drop 3)).1.dropLast).length) := by
  constructor
  · intro w p text rest h0 hu hlen hw hlong
    rw [decodeEntry_value_eval w p text rest h0 hu hlen]
    rw [if_neg (by omega), if_pos hlong]
  · intro rem h
    exact decodeEntry_operand_shape h

/-- Claim C8, counterexample: a value entry whose text is 2048 bytes long but
whose weight byte is 200 fails with the invalid-weight error, not the
operand-too-long error — the weight check runs first, so exceeding 2047
bytes does not guarantee the operand-too-long error. -/
theorem c8_counterexample :
    pgTsQueryTryFrom ([0, 0, 0, 1, 1, 200, 0] ++ (List.replicate 2048 97 ++ [0])) =
      .error .invalidWeight ∧
    2047 < (List.replicate 2048 97).length ∧
    DecErr.invalidWeight ≠ DecErr.operandTooLong := by
  refine ⟨?_, by simp only [List.length_replicate]; omega, by decide⟩
  have hde : decodeEntry (1 :: 200 :: 0 :: (List.replicate 2048 97 ++ 0 :: [])) =
      .error .invalidWeight := by
    rw [decodeEntry_value_eval 200 0 (List.replicate 2048 97) []
      (by simp only [List.mem_replicate]; omega)
      (utf8Valid_replicate97 2048) (by simp only [List.length_replicate]; omega)]
    rw [if_pos (by norm_num)]
  rw [show ([0, 0, 0, 1, 1, 200, 0] ++ (List.replicate 2048 97 ++ [0]) : List Nat) =
    [0, 0, 0, 1] ++ (1 :: 200 :: 0 :: (List.replicate 2048 97 ++ 0 :: [])) from rfl]
  rw [pgTsQueryTryFrom_one, decodeEntries_one, hde]

/-- Witness for the amended claim C8: with weight 0 a 2048-byte text does
fail with the operand-too-long error. -/
theorem c8_operand_too_long_witness :
    decodeEntry (1 :: 0 :: 0 :: (List.replicate 2048 97 ++ 0 :: [])) =
      .error .operandTooLong :=
  c8_operand_too_long.1 0 0 (List.replicate 2048 97) []
    (by simp only [List.mem_replicate]; omega) (utf8Valid_replicate97 2048)
    (by simp only [List.length_replicate]; omega) (by norm_num)
    (by simp only [List.length_replicate]; omega)

/-- Claim C9: whenever the slice decoder fails, `from_sql` panics (the source
unwraps the decode result), and in particular it does not return the error to
the caller. -/
theorem c9_from_sql_panics (raw : List Nat) (e : DecErr)
    (h : pgTsQueryTryFrom raw = .error e) :
    fromSql raw = .panics ∧ fromSql raw ≠ .returns (.error e) := by
  unfold fromSql
  rw [h]
  exact ⟨rfl, by simp⟩

/-- Witness for claim C9 at the empty input, which fails the count-header
read. -/
theorem c9_from_sql_panics_witness :
    fromSql [] = .panics ∧ fromSql [] ≠ .returns (.error .eof) :=
  c9_from_sql_panics [] .eof rfl

/-- Claim C1 as amended: decoding the encoding returns the query exactly when
every entry is wire-faithful — values satisfy the claimed constraints
(weight at most 15, flag byte in u8 range, text valid UTF-8 without an
embedded 0 and at most 2047 bytes) and additionally carry the derived
distance equal to text length plus one; phrase operators carry an explicit
distance in signed 16-bit range, non-phrase operators carry none; and the
entry count fits the 32-bit header.  (A phrase operator with absent distance
comes back as distance 1, and any mismatched derived field is rewritten by
the decoder, which is what the counterexample exhibits.) -/
theorem c1_roundtrip (q : PgTsQuery) (hlen : q.entries.length < 4294967296)
    (hv : ∀ x ∈ q.entries, validEntryB x = true) :
    pgTsQueryTryFrom (toSql q) = .ok q := by
  obtain ⟨es⟩ := q
  have hlen2 : es.length < 4294967296 := hlen
  have hv2 : ∀ x ∈ es, validEntryB x = true := hv
  rw [show toSql ⟨es⟩ =
    u32be (es.length % 4294967296) ++ (es.map encodeEntry).flatten from rfl]
  rw [Nat.mod_eq_of_lt hlen2]
  simp only [pgTsQueryTryFrom, readU32be_u32be hlen2 ((es.map encodeEntry).flatten),
    decodeEntries_encode hv2]

/-- Witness for the amended claim C1: a query with a phrase operator of
explicit distance 2 and two values (one weighted, one with the star flag)
round-trips. -/
theorem c1_roundtrip_witness :
    pgTsQueryTryFrom (toSql ⟨[.operator ⟨.phrase, some 2⟩, .value ⟨0, [97], 0, 2⟩,
      .value ⟨3, [98], 1, 2⟩]⟩) =
      .ok ⟨[.operator ⟨.phrase, some 2⟩, .value ⟨0, [97], 0, 2⟩,
        .value ⟨3, [98], 1, 2⟩]⟩ :=
  c1_roundtrip ⟨[.operator ⟨.phrase, some 2⟩, .value ⟨0, [97], 0, 2⟩,
    .value ⟨3, [98], 1, 2⟩]⟩ (by decide) (by decide)

/-- Claim C7 as amended: appending arbitrary bytes to a buffer that decodes
successfully leaves the result unchanged provided the declared entries do
not consume the buffer exactly to its end (at least one already-unconsumed
byte follows them).  When the entries end flush with the buffer, appending
can change the outcome: the counterexample appends one byte after a
trailing operator entry and turns success into the trailing-operator
error. -/
theorem c7_trailing_bytes (bytes extra : List Nat) (n : Nat) (rem : List Nat)
    (es : List Entry) (remF : List Nat)
    (h32 : readU32be bytes = .ok (n, rem))
    (hdes : decodeEntries n rem = .ok (es, remF)) (hne : remF ≠ []) :
    pgTsQueryTryFrom (bytes ++ extra) = .ok ⟨es⟩ ∧
    pgTsQueryTryFrom bytes = .ok ⟨es⟩ := by
  constructor
  · have h32e := readU32be_extend h32 extra
    have hdese := decodeEntries_extend n hdes hne extra
    simp only [pgTsQueryTryFrom, h32e, hdese]
  · simp only [pgTsQueryTryFrom, h32, hdes]

/-- Witness for the amended claim C7: a one-value buffer with one trailing
byte decodes to the same query after two further bytes are appended. -/
theorem c7_trailing_bytes_witness :
    pgTsQueryTryFrom ([0, 0, 0, 1, 1, 0, 0, 97, 0, 5] ++ [99, 100]) =
      .ok ⟨[.value ⟨0, [97], 0, 2⟩]⟩ ∧
    pgTsQueryTryFrom [0, 0, 0, 1, 1, 0, 0, 97, 0, 5] =
      .ok ⟨[.value ⟨0, [97], 0, 2⟩]⟩ :=
  c7_trailing_bytes [0, 0, 0, 1, 1, 0, 0, 97, 0, 5] [99, 100] 1
    [1, 0, 0, 97, 0, 5] [.value ⟨0, [97], 0, 2⟩] [5] (by decide) (by decide)
    (by decide)

/-- Claim C10: every value entry of a successfully decoded query has its
distance field equal to the byte length of its text plus one — the decoder
always constructs the field that way. -/
theorem c10_distance_invariant (bytes : List Nat) (q : PgTsQuery)
    (h : pgTsQueryTryFrom bytes = .ok q) (v : Value)
    (hv : Entry.value v ∈ q.entries) :
    v.distance = (v.text.length : Int) + 1 := by
  unfold pgTsQueryTryFrom at h
  split at h
  · exact Except.noConfusion h
  · rename_i count rem heq
    split at h
    · exact Except.noConfusion h
    · rename_i es remF heq2
      injection h with h1
      rw [← h1] at hv
      exact decodeEntries_value_distance count heq2 v hv

/-- Witness for claim C10 at the decode of a one-value buffer. -/
theorem c10_distance_invariant_witness :
    (2 : Int) = (([97] : List Nat).length : Int) + 1 :=
  c10_distance_invariant [0, 0, 0, 1, 1, 0, 0, 97, 0] ⟨[.value ⟨0, [97], 0, 2⟩]⟩
    (by decide) ⟨0, [97], 0, 2⟩ (by decide)

end PgTs
